import Mathlib

/- Shallow embedding of drape/harfbuzz_shape.cpp (bidirectional text
   itemization and RTL run reordering for single-line text shaping).

   External library calls are modelled as explicit oracle parameters:
   - ext : Int → List Int models the result sets of the ICU call
     uscript_getScriptExtensions for each code point;
   - BidiOracle models ubidi_setPara (success or failure) together with
     ubidi_getLogicalRun;
   - toUtf16 models strings::ToUtf16.

   Debug assertions (the ASSERT macros from base/assert.hpp, which is not part
   of the sources here; modelled from the spec as aborting on violation) are
   embedded by letting the functions that contain them return Option, with
   none marking an assertion failure. -/

namespace text_shape

/-- Constant kMaxScripts from harfbuzz_shape.cpp: the maximum number of
scripts a single code point can belong to. -/
def kMaxScripts : Nat := 32

/-- ICU constant USCRIPT_INVALID_CODE. -/
def USCRIPT_INVALID_CODE : Int := -1

/-- ICU constant USCRIPT_COMMON (Zyyy). -/
def USCRIPT_COMMON : Int := 0

/-- ICU constant USCRIPT_INHERITED (Zinh). -/
def USCRIPT_INHERITED : Int := 1

/-- ICU constant USCRIPT_UNKNOWN (Zzzz). -/
def USCRIPT_UNKNOWN : Int := 103

/-- HarfBuzz text direction (hb_direction_t), restricted to the three values
used by the itemizer: HB_DIRECTION_INVALID, HB_DIRECTION_LTR and
HB_DIRECTION_RTL. -/
inductive HBDirection where
  | invalid
  | ltr
  | rtl
  deriving DecidableEq, Repr

/-- HarfBuzz script (hb_script_t) as produced by ICUScriptToHarfbuzzScript:
either HB_SCRIPT_INVALID, HB_SCRIPT_UNKNOWN (Zzzz), or the script obtained
from the short name of a valid ICU script code. -/
inductive HBScript where
  | invalid
  | unknown
  | icu (code : Int)
  deriving DecidableEq, Repr

/-- Record TextRun from drape/harfbuzz_shape.hpp, as constructed by
emplace_back(start, length, script, direction) in harfbuzz_shape.cpp and
read through the fields m_start, m_length, m_script, m_direction. -/
structure TextRun where
  m_start : Nat
  m_length : Nat
  m_script : HBScript
  m_direction : HBDirection
  deriving DecidableEq, Repr

/-- Record TextRuns: the UTF-16 transcoded text (as a list of 16-bit code
units) and the ordered sequence of runs. -/
structure TextRuns where
  text : List Nat
  substrings : List TextRun
  deriving DecidableEq, Repr

/-- Test U16_IS_LEAD from ICU utf16.h: the code unit is a high (lead)
surrogate. -/
def u16IsLead (c : Nat) : Bool := 0xD800 <= c && c < 0xDC00

/-- Test U16_IS_TRAIL from ICU utf16.h: the code unit is a low (trail)
surrogate. -/
def u16IsTrail (c : Nat) : Bool := 0xDC00 <= c && c < 0xE000

/-- Composition U16_GET_SUPPLEMENTARY of a lead and a trail surrogate into a
supplementary code point. -/
def u16Supplementary (c1 c2 : Nat) : Int :=
  0x10000 + ((c1 : Int) - 0xD800) * 0x400 + ((c2 : Int) - 0xDC00)

/-- First code point of a code unit sequence together with the number of code
units it occupies, following the U16_NEXT macro: an unpaired surrogate
decodes to its own value and occupies one unit. -/
def u16Head : List Nat → Int × Nat
  | [] => (0, 1)
  | [c1] => ((c1 : Int), 1)
  | c1 :: c2 :: _ =>
    if u16IsLead c1 && u16IsTrail c2 then (u16Supplementary c1 c2, 2) else ((c1 : Int), 1)

/-- Decoding of a UTF-16 code unit sequence into code points, each paired with
the code unit offset at which it starts (first offset pos), following
U16_NEXT as used by UTF16CharIterator. -/
def decodeChars (pos : Nat) : List Nat → List (Nat × Int)
  | [] => []
  | [c1] => [(pos, (c1 : Int))]
  | c1 :: c2 :: rest2 =>
    if u16IsLead c1 && u16IsTrail c2 then
      (pos, u16Supplementary c1 c2) :: decodeChars (pos + 2) rest2
    else (pos, (c1 : Int)) :: decodeChars (pos + 1) (c2 :: rest2)

/-- Sequence of (array_pos, code point) pairs observed by the while loop body
of ScriptInterval, one per successful UTF16CharIterator.Advance call. The
argument rest is the suffix of the slice that has not been read yet (from
next_pos on), pos is the current next_pos and c the current char. The final
Advance call moves array_pos to the end of the slice without reading a new
character, so the loop body sees the last decoded character once more with
a stale char value, exactly as the C++ iterator behaves. -/
def iterVisits : List Nat → Nat → Int → List (Nat × Int)
  | [], pos, c => [(pos, c)]
  | [c1], pos, _ => (pos, (c1 : Int)) :: iterVisits [] (pos + 1) (c1 : Int)
  | c1 :: c2 :: rest2, pos, _ =>
    if u16IsLead c1 && u16IsTrail c2 then
      (pos, u16Supplementary c1 c2) :: iterVisits rest2 (pos + 2) (u16Supplementary c1 c2)
    else (pos, (c1 : Int)) :: iterVisits (c2 :: rest2) (pos + 1) (c1 : Int)

/-- Function GetScriptExtensions from harfbuzz_shape.cpp. The oracle ext gives
the script extension set that ICU reports for a code point; when that set
does not fit into the kMaxScripts buffer, uscript_getScriptExtensions
reports a buffer overflow error and the function returns 0 scripts. -/
def GetScriptExtensions (ext : Int → List Int) (codepoint : Int) : List Int :=
  if (ext codepoint).length <= kMaxScripts then ext codepoint else []

/-- Function ScriptSetIntersect from harfbuzz_shape.cpp, acting on the live
prefix of the result array (the first resultSize entries). Returns none when
the debug assertion ASSERT(!contains(USCRIPT_INHERITED)) fires. -/
def ScriptSetIntersect (ext : Int → List Int) (codepoint : Int) (result : List Int) :
    Option (List Int) :=
  let scripts := GetScriptExtensions ext codepoint
  if scripts = [USCRIPT_INHERITED] then some result
  else if USCRIPT_INHERITED ∈ scripts then none
  else some (result.filter (fun c => scripts.contains c))

/-- Intersection effect of ScriptSetIntersect with its internal assertion
ignored; under InheritedOk it coincides with ScriptSetIntersect. -/
def plainIntersect (ext : Int → List Int) (codepoint : Int) (result : List Int) : List Int :=
  let scripts := GetScriptExtensions ext codepoint
  if scripts = [USCRIPT_INHERITED] then result
  else result.filter (fun c => scripts.contains c)

/-- Property of the ICU script extension data assumed by the assertion inside
ScriptSetIntersect: USCRIPT_INHERITED only ever occurs as the singleton
extension set. -/
def InheritedOk (ext : Int → List Int) : Prop :=
  ∀ cp : Int, USCRIPT_INHERITED ∈ GetScriptExtensions ext cp →
    GetScriptExtensions ext cp = [USCRIPT_INHERITED]

/-- Loop of ScriptInterval over the visit sequence. The state scripts is the
live prefix of the scripts array (its first scriptsSize entries) and slot0
is the physical value stored at scripts[0]; when an intersection empties
the set, ScriptSetIntersect writes nothing, so scripts[0] keeps the value
it had before that intersection. Returns the final (length, scripts[0])
pair, or none when an assertion fires. -/
def scriptIntervalLoop (ext : Int → List Int) (length : Nat) :
    List (Nat × Int) → List Int → Int → Option (Nat × Int)
  | [], _, slot0 => some (length, slot0)
  | (pos, c) :: visits, scripts, slot0 =>
    match ScriptSetIntersect ext c scripts with
    | none => none
    | some scripts2 =>
      if scripts2.isEmpty then some (pos, slot0)
      else scriptIntervalLoop ext length visits scripts2 (scripts2.headD slot0)

/-- Function ScriptInterval from harfbuzz_shape.cpp. Returns none when the
precondition assertion ASSERT_GREATER(length, 0U) fires, or when an
assertion inside ScriptSetIntersect fires; otherwise returns the pair of
the found run length (in code units) and the dominant script. The view
text.data() + start of size length is modelled by drop and take; reading
past the end of the backing buffer is undefined behaviour in C++ and is not
modelled (the slice is truncated instead). On an empty view the iterator
never reads a character, so char stays 0 and the loop body never runs. -/
def ScriptInterval (ext : Int → List Int) (text : List Nat) (start : Nat) (length : Nat) :
    Option (Nat × Int) :=
  if length = 0 then none
  else
    let s := (text.drop start).take length
    match s with
    | [] => some (length, (GetScriptExtensions ext 0).headD USCRIPT_INVALID_CODE)
    | c1 :: rest =>
      let hd := u16Head (c1 :: rest)
      let scripts := GetScriptExtensions ext hd.1
      scriptIntervalLoop ext length (iterVisits ((c1 :: rest).drop hd.2) hd.2 hd.1)
        scripts (scripts.headD USCRIPT_INVALID_CODE)

/-- Function ICUScriptToHarfbuzzScript from harfbuzz_shape.cpp: maps
USCRIPT_INVALID_CODE to HB_SCRIPT_INVALID and otherwise converts through
the ICU short script name (USCRIPT_UNKNOWN, short name Zzzz, becomes
HB_SCRIPT_UNKNOWN; any other valid code maps to its own script). -/
def ICUScriptToHarfbuzzScript (script : Int) : HBScript :=
  if script = USCRIPT_INVALID_CODE then HBScript.invalid
  else if script = USCRIPT_UNKNOWN then HBScript.unknown
  else HBScript.icu script

/-- Direction derived from a bidi level in GetSingleTextLineRuns:
bidiLevel & 0x01 gives HB_DIRECTION_RTL, otherwise HB_DIRECTION_LTR. -/
def levelToDirection (level : Nat) : HBDirection :=
  if level % 2 = 1 then HBDirection.rtl else HBDirection.ltr

/-- Oracle for the ICU bidi analyzer: fails tells whether ubidi_setPara
reports an error for the paragraph, and logicalRun models
ubidi_getLogicalRun, mapping a logical position to the pair (limit, level)
of the logical run containing it. -/
structure BidiOracle where
  fails : Bool
  logicalRun : Nat → Nat × Nat

/-- Validity contract of ubidi_getLogicalRun for a paragraph of the given
length: the returned limit is past the queried position and at most the
paragraph length. -/
def ValidBidi (bidi : BidiOracle) (textLength : Nat) : Prop :=
  ∀ p : Nat, p < textLength →
    p < (bidi.logicalRun p).1 ∧ (bidi.logicalRun p).1 ≤ textLength

/-- Inner loop of GetSingleTextLineRuns: repeatedly carve script-homogeneous
sub-runs out of the logical (bidi) run ending at bidiRunEnd, starting at
scriptRunStart. Returns none when the assertion
ASSERT_LESS(scriptRunStart, scriptRunEnd) fires (or an assertion inside
ScriptInterval fires). -/
def scriptLoop (ext : Int → List Int) (text : List Nat) (bidiRunEnd : Nat) (level : Nat)
    (scriptRunStart : Nat) : Option (List TextRun) :=
  if h : scriptRunStart < bidiRunEnd then
    match ScriptInterval ext text scriptRunStart (bidiRunEnd - scriptRunStart) with
    | none => none
    | some (runLen, script) =>
      if h2 : scriptRunStart < scriptRunStart + runLen then
        match scriptLoop ext text bidiRunEnd level (scriptRunStart + runLen) with
        | none => none
        | some rest =>
          some (TextRun.mk scriptRunStart runLen (ICUScriptToHarfbuzzScript script)
            (levelToDirection level) :: rest)
      else none
  else some []
termination_by bidiRunEnd - scriptRunStart
decreasing_by omega

/-- Outer loop of GetSingleTextLineRuns over the logical bidi runs of the
paragraph. Returns none when the assertion
ASSERT_LESS(bidiRunStart, bidiRunEnd) fires (or an inner assertion
fires). -/
def bidiLoop (ext : Int → List Int) (bidi : BidiOracle) (text : List Nat)
    (bidiRunStart : Nat) : Option (List TextRun) :=
  if h : bidiRunStart < text.length then
    let lr := bidi.logicalRun bidiRunStart
    if h2 : bidiRunStart < lr.1 then
      match scriptLoop ext text lr.1 lr.2 bidiRunStart with
      | none => none
      | some first =>
        match bidiLoop ext bidi text lr.1 with
        | none => none
        | some rest => some (first ++ rest)
    else none
  else some []
termination_by text.length - bidiRunStart
decreasing_by exact Nat.sub_lt_sub_left h h2

/-- Function GetSingleTextLineRuns from harfbuzz_shape.cpp, parameterized by
the ICU oracles. When ubidi_setPara fails the function logs an error and
appends the single degraded run emplace_back(0, 0, HB_SCRIPT_UNKNOWN,
HB_DIRECTION_INVALID); otherwise it splits the text by logical bidi runs
and each of those by common script. The appended run list is returned
(substrings starts empty in ItemizeText); none marks a failed debug
assertion. -/
def GetSingleTextLineRuns (ext : Int → List Int) (bidi : BidiOracle) (text : List Nat) :
    Option (List TextRun) :=
  if bidi.fails then some [TextRun.mk 0 0 HBScript.unknown HBDirection.invalid]
  else bidiLoop ext bidi text 0

/-- Function ItemizeText from harfbuzz_shape.cpp, parameterized additionally
by the transcoding oracle toUtf16 for strings::ToUtf16. The two entry
assertions (nonempty input, no carriage return or line feed) are modelled
as none; utf8 is the input byte sequence. -/
def ItemizeText (ext : Int → List Int) (bidi : BidiOracle) (toUtf16 : List Nat → List Nat)
    (utf8 : List Nat) : Option TextRuns :=
  if utf8 = [] then none
  else if utf8.contains 13 || utf8.contains 10 then none
  else
    let text16 := toUtf16 utf8
    match GetSingleTextLineRuns ext bidi text16 with
    | none => none
    | some runs => some (TextRuns.mk text16 runs)

/-- Pass of ReorderRTL that reverses, in place, every maximal contiguous
subsequence of runs whose direction differs from the line direction d:
the translation of the while loop over iterators in harfbuzz_shape.cpp. -/
def reorderPass (d : HBDirection) : List TextRun → List TextRun
  | [] => []
  | r :: rest =>
    if r.m_direction = d then r :: reorderPass d rest
    else
      ((r :: rest).takeWhile (fun x => x.m_direction ≠ d)).reverse
        ++ reorderPass d ((r :: rest).dropWhile (fun x => x.m_direction ≠ d))
termination_by l => l.length
decreasing_by
  · simp
  · simp only [List.dropWhile_cons]
    split
    · exact Nat.lt_succ_of_le (List.Sublist.length_le (List.dropWhile_sublist _))
    · simp_all

/-- Function ReorderRTL from harfbuzz_shape.cpp. The line direction is read
from the first run through an unguarded iterator dereference; calling it on
an empty run sequence is undefined behaviour in C++, modelled as none.
After the span-reversal pass the whole sequence is reversed when the line
direction is not HB_DIRECTION_LTR. -/
def ReorderRTL (runs : List TextRun) : Option (List TextRun) :=
  match runs with
  | [] => none
  | r :: rest =>
    let lineDirection := r.m_direction
    let passed := reorderPass lineDirection (r :: rest)
    some (if lineDirection ≠ HBDirection.ltr then passed.reverse else passed)

/-- Code point of the last entry of a position-code point list, or the given
default when the list is empty. -/
def lastSnd : List (Nat × Int) → Int → Int
  | [], c => c
  | x :: xs, _ => lastSnd xs x.2

/-- Reference scan used to characterize the ScriptInterval loop: fold the
assertion-free intersection over a visit list, stopping with the current
position as soon as the active set becomes empty, and otherwise returning
the full requested length together with the final scripts[0] value. -/
def specScan (ext : Int → List Int) (length : Nat) :
    List (Nat × Int) → List Int → Int → Nat × Int
  | [], _, slot0 => (length, slot0)
  | (pos, c) :: visits, scripts, slot0 =>
    let scripts2 := plainIntersect ext c scripts
    if scripts2.isEmpty then (pos, slot0)
    else specScan ext length visits scripts2 (scripts2.headD slot0)

/-- Sequence of active script sets obtained by intersecting an initial set
with the extension sets of the listed code points, one entry per code
point (the set as it stands after that intersection). -/
def activeSets (ext : Int → List Int) : List Int → List (Nat × Int) → List (List Int)
  | _, [] => []
  | scripts, (_, c) :: rest =>
    let scripts2 := plainIntersect ext c scripts
    scripts2 :: activeSets ext scripts2 rest

/-- Set standing after the last non-emptying intersection: walk the sequence
of active sets and return the set standing immediately before the first
empty one (or the final set when none is empty), starting from the initial
set cur. -/
def lastBeforeEmpty : List Int → List (List Int) → List Int
  | cur, [] => cur
  | cur, s :: rest => if s.isEmpty then cur else lastBeforeEmpty s rest

/-- Predicate stating that a run list tiles the half-open offset interval
from a to b contiguously: the first run starts at a, every run has positive
length and starts where the previous one ends, and the last run ends at b. -/
def Covers : Nat → Nat → List TextRun → Prop
  | a, b, [] => a = b
  | a, b, r :: rest => r.m_start = a ∧ 0 < r.m_length ∧ Covers (a + r.m_length) b rest

/-- Relational specification of the span-reversal pass: the output is the
input with every maximal contiguous subsequence of runs whose direction
differs from d reversed in place (maximality is enforced by requiring the
element following a flipped segment, when present, to have direction d). -/
inductive SpanReversed (d : HBDirection) : List TextRun → List TextRun → Prop where
  | nil : SpanReversed d [] []
  | keep (r : TextRun) (l l2 : List TextRun) : r.m_direction = d → SpanReversed d l l2 →
      SpanReversed d (r :: l) (r :: l2)
  | flip (seg : List TextRun) (l l2 : List TextRun) : seg ≠ [] →
      (∀ x ∈ seg, x.m_direction ≠ d) → (∀ y ∈ l.head?, y.m_direction = d) →
      SpanReversed d l l2 → SpanReversed d (seg ++ l) (seg.reverse ++ l2)

/-- Level of the logical bidi run containing position pos, obtained by walking
the logical runs of the oracle from position cur onwards, exactly as the
outer loop of GetSingleTextLineRuns visits them. -/
def levelAtFrom (bidi : BidiOracle) (textLength : Nat) (pos : Nat) (cur : Nat) : Nat :=
  if h : cur < textLength then
    let lr := bidi.logicalRun cur
    if pos < lr.1 then lr.2
    else if h2 : cur < lr.1 then levelAtFrom bidi textLength pos lr.1 else 0
  else 0
termination_by textLength - cur
decreasing_by exact Nat.sub_lt_sub_left h h2

/-- Concrete script extension oracle used to evaluate the embedding on test
inputs: code point 769 (a combining accent) has the singleton Inherited
extension set, 65, 66 and 67 have small distinct sets, everything else is
Common. -/
def wExt : Int → List Int := fun cp =>
  if cp = 769 then [USCRIPT_INHERITED]
  else if cp = 65 then [5]
  else if cp = 66 then [5, 6]
  else if cp = 67 then [7]
  else [USCRIPT_COMMON]

/-- Concrete bidi oracle: a single left-to-right logical run of length 2. -/
def wBidi : BidiOracle := BidiOracle.mk false (fun _ => (2, 0))

/-- Concrete bidi oracle reporting failure of ubidi_setPara. -/
def wBidiFail : BidiOracle := BidiOracle.mk true (fun _ => (0, 0))

/-- Concrete bidi oracle: a length 2 paragraph made of an LTR logical run at
offset 0 followed by an RTL logical run at offset 1. -/
def wBidiMixed : BidiOracle :=
  BidiOracle.mk false (fun p => if p = 0 then (1, 0) else (2, 1))

/-- Concrete transcoding oracle: the identity on code unit lists. -/
def wToUtf16 : List Nat → List Nat := fun l => l

/-! Lemmas about the span-reversal pass of ReorderRTL. -/

theorem reorderPass_nil (d : HBDirection) : reorderPass d [] = [] := by
  simp [reorderPass]

theorem reorderPass_keep (d : HBDirection) (r : TextRun) (rest : List TextRun)
    (h : r.m_direction = d) : reorderPass d (r :: rest) = r :: reorderPass d rest := by
  rw [reorderPass]
  simp [h]

theorem reorderPass_flip (d : HBDirection) (r : TextRun) (rest : List TextRun)
    (h : ¬ r.m_direction = d) :
    reorderPass d (r :: rest) =
      ((r :: rest).takeWhile (fun x => x.m_direction ≠ d)).reverse
        ++ reorderPass d ((r :: rest).dropWhile (fun x => x.m_direction ≠ d)) := by
  rw [reorderPass]
  simp [h]

theorem reorderPass_all_eq (d : HBDirection) :
    ∀ l : List TextRun, (∀ x ∈ l, x.m_direction = d) → reorderPass d l = l
  | [] => by intro _; exact reorderPass_nil d
  | r :: rest => by
    intro h
    rw [reorderPass_keep d r rest (h r (by simp))]
    rw [reorderPass_all_eq d rest (fun x hx => h x (by simp [hx]))]

/-- Output of a span reversal is a permutation of its input. -/
theorem spanReversed_perm {d : HBDirection} {l l2 : List TextRun}
    (h : SpanReversed d l l2) : l2.Perm l := by
  induction h with
  | nil => exact List.Perm.refl _
  | keep r l l2 hr hsub ih => exact ih.cons r
  | flip seg l l2 hseg hmem hhead hsub ih => exact (seg.reverse_perm).append ih

/-- The span-reversal pass realizes the relational specification: it reverses
exactly the maximal contiguous subsequences whose direction differs from
the line direction. -/
theorem reorderPass_spanReversed (d : HBDirection) :
    ∀ l : List TextRun, SpanReversed d l (reorderPass d l)
  | [] => by rw [reorderPass_nil]; exact SpanReversed.nil
  | r :: rest => by
    by_cases hr : r.m_direction = d
    · rw [reorderPass_keep d r rest hr]
      exact SpanReversed.keep r rest _ hr (reorderPass_spanReversed d rest)
    · rw [reorderPass_flip d r rest hr]
      have hsplit := @List.takeWhile_append_dropWhile _
        (fun x => decide (x.m_direction ≠ d)) (r :: rest)
      have key : SpanReversed d
          ((r :: rest).takeWhile (fun x => decide (x.m_direction ≠ d))
            ++ (r :: rest).dropWhile (fun x => decide (x.m_direction ≠ d)))
          (((r :: rest).takeWhile (fun x => decide (x.m_direction ≠ d))).reverse
            ++ reorderPass d ((r :: rest).dropWhile (fun x => decide (x.m_direction ≠ d)))) := by
        apply SpanReversed.flip
        · simp [List.takeWhile_cons, hr]
        · intro x hx
          simpa using List.mem_takeWhile_imp hx
        · intro y hy
          have h2 := List.head?_dropWhile_not
            (fun x => decide (x.m_direction ≠ d)) (r :: rest)
          rw [Option.mem_def] at hy
          rw [hy] at h2
          simpa using h2
        · exact reorderPass_spanReversed d
            ((r :: rest).dropWhile (fun x => decide (x.m_direction ≠ d)))
      rw [hsplit] at key
      exact key
termination_by l => l.length
decreasing_by
  · simp
  · simp only [List.dropWhile_cons]
    split
    · exact Nat.lt_succ_of_le (List.Sublist.length_le (List.dropWhile_sublist _))
    · simp_all

/-- Claim C9: a call to ScriptInterval requesting a scan of length 0 is
rejected by the precondition assertion ASSERT_GREATER(length, 0U), modelled
as the abort value none, rather than returning an empty run of length 0. -/
theorem C9_scriptInterval_zero_length_rejected (ext : Int → List Int) (text : List Nat)
    (start : Nat) : ScriptInterval ext text start 0 = none := by
  simp [ScriptInterval]

/-- Claim C3: a code point whose script extension set is exactly the singleton
Inherited set imposes no constraint: ScriptSetIntersect returns the active
set unchanged (hence with unchanged size), and a visit of such a code point
inside the ScriptInterval loop never ends the active interval early: when
the live set is nonempty (with slot0 the stored scripts[0] value, which
equals the head of a nonempty live set) the loop simply skips the visit. -/
theorem C3_inherited_imposes_no_constraint (ext : Int → List Int) (cp : Int)
    (hcp : GetScriptExtensions ext cp = [USCRIPT_INHERITED]) :
    (∀ result : List Int, ScriptSetIntersect ext cp result = some result) ∧
    (∀ (len pos : Nat) (visits : List (Nat × Int)) (scripts : List Int) (slot0 : Int),
      scripts ≠ [] → slot0 = scripts.headD slot0 →
      scriptIntervalLoop ext len ((pos, cp) :: visits) scripts slot0
        = scriptIntervalLoop ext len visits scripts slot0) := by
  constructor
  · intro result
    simp [ScriptSetIntersect, hcp]
  · intro len pos visits scripts slot0 hs hslot
    rw [scriptIntervalLoop]
    have h1 : ScriptSetIntersect ext cp scripts = some scripts := by
      simp [ScriptSetIntersect, hcp]
    rw [h1]
    show (if scripts.isEmpty = true then some (pos, slot0)
        else scriptIntervalLoop ext len visits scripts (scripts.headD slot0))
      = scriptIntervalLoop ext len visits scripts slot0
    rw [if_neg (by simpa [List.isEmpty_iff] using hs)]
    rw [← hslot]

/-- Witness for C3 at a concrete combining code point and a concrete active
set. -/
theorem C3_witness :
    ScriptSetIntersect wExt 769 [5, 7] = some [5, 7] ∧
    scriptIntervalLoop wExt 4 [(2, 769), (3, 70)] [5, 7] 5
      = scriptIntervalLoop wExt 4 [(3, 70)] [5, 7] 5 := by
  have h := C3_inherited_imposes_no_constraint wExt 769 (by decide)
  exact ⟨h.1 [5, 7], h.2 4 2 [(3, 70)] [5, 7] 5 (by decide) (by decide)⟩

/-- Claim C5: on a run sequence whose entries all share one direction,
ReorderRTL is the identity when that direction is left-to-right and the
exact reversal when it is right-to-left. -/
theorem C5_reorder_uniform_direction (r : TextRun) (rest : List TextRun)
    (hall : ∀ x ∈ r :: rest, x.m_direction = r.m_direction) :
    (r.m_direction = HBDirection.ltr → ReorderRTL (r :: rest) = some (r :: rest)) ∧
    (r.m_direction = HBDirection.rtl → ReorderRTL (r :: rest) = some (r :: rest).reverse) := by
  have hp := reorderPass_all_eq r.m_direction (r :: rest) hall
  constructor
  · intro h
    rw [h] at hp
    simp [ReorderRTL, hp, h]
  · intro h
    rw [h] at hp
    simp [ReorderRTL, hp, h]

/-- Witness for C5 on a concrete pure RTL run sequence. -/
theorem C5_witness :
    ReorderRTL [TextRun.mk 0 1 (HBScript.icu 5) HBDirection.rtl,
        TextRun.mk 1 2 (HBScript.icu 5) HBDirection.rtl]
      = some [TextRun.mk 1 2 (HBScript.icu 5) HBDirection.rtl,
        TextRun.mk 0 1 (HBScript.icu 5) HBDirection.rtl] := by
  have h := (C5_reorder_uniform_direction
    (TextRun.mk 0 1 (HBScript.icu 5) HBDirection.rtl)
    [TextRun.mk 1 2 (HBScript.icu 5) HBDirection.rtl] (by decide)).2 rfl
  simpa using h

/-- Claim C4: ReorderRTL establishes the base direction from the first run,
reverses in place every maximal contiguous subsequence whose direction
differs from that base direction (the SpanReversed relation), afterwards
reverses the whole sequence exactly when the base direction is
right-to-left, and only permutes runs, never resizing, adding or removing
them. Stated for first runs carrying an actual direction (the data model
of runs produced by the itemizer on the success path uses only LTR and
RTL). -/
theorem C4_reorder_rtl_characterized (r : TextRun) (rest : List TextRun)
    (hd : r.m_direction ≠ HBDirection.invalid) :
    ∃ mid out, SpanReversed r.m_direction (r :: rest) mid ∧
      ReorderRTL (r :: rest) = some out ∧
      out = (if r.m_direction = HBDirection.rtl then mid.reverse else mid) ∧
      out.Perm (r :: rest) := by
  refine ⟨reorderPass r.m_direction (r :: rest),
    (if r.m_direction = HBDirection.rtl then (reorderPass r.m_direction (r :: rest)).reverse
      else reorderPass r.m_direction (r :: rest)),
    reorderPass_spanReversed _ _, ?_, rfl, ?_⟩
  · rcases hdir : r.m_direction with _ | _ | _
    · exact absurd hdir hd
    · simp [ReorderRTL, hdir]
    · simp [ReorderRTL, hdir]
  · have hperm := spanReversed_perm (reorderPass_spanReversed r.m_direction (r :: rest))
    split
    · exact (List.reverse_perm _).trans hperm
    · exact hperm

/-- Witness for C4 on a concrete mixed-direction run sequence with an LTR
base. -/
theorem C4_witness :
    ∃ mid out, SpanReversed
        (TextRun.mk 0 1 (HBScript.icu 5) HBDirection.ltr).m_direction
        [TextRun.mk 0 1 (HBScript.icu 5) HBDirection.ltr,
          TextRun.mk 1 1 (HBScript.icu 6) HBDirection.rtl,
          TextRun.mk 2 1 (HBScript.icu 6) HBDirection.rtl,
          TextRun.mk 3 1 (HBScript.icu 5) HBDirection.ltr] mid ∧
      ReorderRTL [TextRun.mk 0 1 (HBScript.icu 5) HBDirection.ltr,
          TextRun.mk 1 1 (HBScript.icu 6) HBDirection.rtl,
          TextRun.mk 2 1 (HBScript.icu 6) HBDirection.rtl,
          TextRun.mk 3 1 (HBScript.icu 5) HBDirection.ltr] = some out ∧
      out = (if (TextRun.mk 0 1 (HBScript.icu 5) HBDirection.ltr).m_direction
          = HBDirection.rtl then mid.reverse else mid) ∧
      out.Perm [TextRun.mk 0 1 (HBScript.icu 5) HBDirection.ltr,
          TextRun.mk 1 1 (HBScript.icu 6) HBDirection.rtl,
          TextRun.mk 2 1 (HBScript.icu 6) HBDirection.rtl,
          TextRun.mk 3 1 (HBScript.icu 5) HBDirection.ltr] :=
  C4_reorder_rtl_characterized (TextRun.mk 0 1 (HBScript.icu 5) HBDirection.ltr)
    [TextRun.mk 1 1 (HBScript.icu 6) HBDirection.rtl,
      TextRun.mk 2 1 (HBScript.icu 6) HBDirection.rtl,
      TextRun.mk 3 1 (HBScript.icu 5) HBDirection.ltr] (by decide)

/-! Lemmas characterizing ScriptInterval. -/

theorem headD_of_ne_nil {l : List Int} (h : l ≠ []) (a b : Int) :
    l.headD a = l.headD b := by
  cases l with
  | nil => exact absurd rfl h
  | cons x xs => rfl

theorem scriptSetIntersect_eq_plain {ext : Int → List Int} (hI : InheritedOk ext)
    (cp : Int) (l : List Int) :
    ScriptSetIntersect ext cp l = some (plainIntersect ext cp l) := by
  by_cases h1 : GetScriptExtensions ext cp = [USCRIPT_INHERITED]
  · simp [ScriptSetIntersect, plainIntersect, h1]
  · by_cases h2 : USCRIPT_INHERITED ∈ GetScriptExtensions ext cp
    · exact absurd (hI cp h2) h1
    · simp [ScriptSetIntersect, plainIntersect, h1, h2]

theorem plainIntersect_idem (ext : Int → List Int) (cp : Int) (l : List Int) :
    plainIntersect ext cp (plainIntersect ext cp l) = plainIntersect ext cp l := by
  by_cases h : GetScriptExtensions ext cp = [USCRIPT_INHERITED]
  · simp [plainIntersect, h]
  · simp only [plainIntersect, if_neg h]
    exact List.filter_eq_self.mpr (fun a ha => (List.mem_filter.mp ha).2)

theorem plainIntersect_self (ext : Int → List Int) (cp : Int) :
    plainIntersect ext cp (GetScriptExtensions ext cp) = GetScriptExtensions ext cp := by
  by_cases h : GetScriptExtensions ext cp = [USCRIPT_INHERITED]
  · simp [plainIntersect, h]
  · simp only [plainIntersect, if_neg h]
    refine List.filter_eq_self.mpr (fun a ha => ?_)
    simp [List.contains, List.elem_iff, ha]

theorem scriptIntervalLoop_eq_specScan {ext : Int → List Int} (hI : InheritedOk ext)
    (len : Nat) : ∀ (visits : List (Nat × Int)) (scripts : List Int) (slot0 : Int),
      scriptIntervalLoop ext len visits scripts slot0
        = some (specScan ext len visits scripts slot0)
  | [], scripts, slot0 => by
    simp [scriptIntervalLoop, specScan]
  | (pos, c) :: visits, scripts, slot0 => by
    rw [scriptIntervalLoop, specScan, scriptSetIntersect_eq_plain hI]
    by_cases h : (plainIntersect ext c scripts).isEmpty = true
    · simp [h]
    · simp only [h, Bool.false_eq_true, if_false]
      exact scriptIntervalLoop_eq_specScan hI len visits (plainIntersect ext c scripts)
        ((plainIntersect ext c scripts).headD slot0)

theorem specScan_append_stale (ext : Int → List Int) (len : Nat) :
    ∀ (tail : List (Nat × Int)) (scripts : List Int) (slot0 cprev : Int),
      slot0 = scripts.headD slot0 →
      plainIntersect ext cprev scripts = scripts →
      specScan ext len (tail ++ [(len, lastSnd tail cprev)]) scripts slot0
        = specScan ext len tail scripts slot0
  | [], scripts, slot0, cprev, hslot, hstab => by
    simp only [List.nil_append, lastSnd, specScan]
    rw [hstab]
    by_cases h : scripts.isEmpty = true
    · simp [h]
    · simp only [h, Bool.false_eq_true, if_false]
      rw [← hslot]
  | (p, c) :: rest, scripts, slot0, cprev, hslot, hstab => by
    simp only [List.cons_append, lastSnd, specScan]
    by_cases h : (plainIntersect ext c scripts).isEmpty = true
    · simp [h]
    · simp only [h, Bool.false_eq_true, if_false]
      exact specScan_append_stale ext len rest (plainIntersect ext c scripts)
        ((plainIntersect ext c scripts).headD slot0) c
        (headD_of_ne_nil (by simpa [List.isEmpty_iff] using h) _ _)
        (plainIntersect_idem ext c scripts)

theorem u16Head_le_length : ∀ (l : List Nat), l ≠ [] → (u16Head l).2 ≤ l.length
  | [], h => absurd rfl h
  | [c1], _ => by simp [u16Head]
  | c1 :: c2 :: rest2, _ => by
    by_cases hb : u16IsLead c1 && u16IsTrail c2 <;> simp [u16Head, hb]

theorem decodeChars_cons (pos : Nat) :
    ∀ (l : List Nat), l ≠ [] →
      decodeChars pos l = (pos, (u16Head l).1)
        :: decodeChars (pos + (u16Head l).2) (l.drop (u16Head l).2)
  | [], h => absurd rfl h
  | [c1], _ => by simp [decodeChars, u16Head]
  | c1 :: c2 :: rest2, _ => by
    by_cases hb : u16IsLead c1 && u16IsTrail c2 <;> simp [decodeChars, u16Head, hb]

theorem iterVisits_eq_decode : ∀ (l : List Nat) (pos : Nat) (c : Int),
    iterVisits l pos c
      = decodeChars pos l ++ [(pos + l.length, lastSnd (decodeChars pos l) c)]
  | [], pos, c => by simp [iterVisits, decodeChars, lastSnd]
  | [c1], pos, c => by simp [iterVisits, decodeChars, lastSnd]
  | c1 :: c2 :: rest2, pos, c => by
    by_cases hb : u16IsLead c1 && u16IsTrail c2
    · simp only [iterVisits, decodeChars, hb, if_true]
      rw [iterVisits_eq_decode rest2 (pos + 2) (u16Supplementary c1 c2)]
      simp only [List.cons_append, List.length_cons, lastSnd]
      rw [show pos + 2 + rest2.length = pos + (rest2.length + 1 + 1) from by omega]
    · simp only [iterVisits, decodeChars, hb, Bool.false_eq_true, if_false]
      rw [iterVisits_eq_decode (c2 :: rest2) (pos + 1) (c1 : Int)]
      simp only [List.cons_append, List.length_cons, lastSnd]
      rw [show pos + 1 + (rest2.length + 1) = pos + (rest2.length + 1 + 1) from by omega]

/-- Main equation for ScriptInterval on an in-bounds nonempty request: the
result is the assertion-free reference scan over the decoded characters of
the slice after the first (the stale final visit of the iterator provably
never changes the outcome). -/
theorem ScriptInterval_eq_specScan (ext : Int → List Int) (text : List Nat)
    (start len0 : Nat) (h0 : 0 < len0) (h1 : start + len0 ≤ text.length)
    (hI : InheritedOk ext) :
    ScriptInterval ext text start len0 =
      some (specScan ext len0 (decodeChars 0 ((text.drop start).take len0)).tail
        (GetScriptExtensions ext (u16Head ((text.drop start).take len0)).1)
        ((GetScriptExtensions ext (u16Head ((text.drop start).take len0)).1).headD
          USCRIPT_INVALID_CODE)) := by
  have hslen : ((text.drop start).take len0).length = len0 := by
    simp [List.length_take, List.length_drop]
    omega
  have hsne : (text.drop start).take len0 ≠ [] := by
    intro hnil
    rw [hnil] at hslen
    simp at hslen
    omega
  obtain ⟨c1, rest, hcons⟩ := List.exists_cons_of_ne_nil hsne
  rw [ScriptInterval]
  rw [if_neg (by omega)]
  rw [hcons]
  have hback : c1 :: rest = (text.drop start).take len0 := hcons.symm
  dsimp only
  rw [scriptIntervalLoop_eq_specScan hI]
  rw [iterVisits_eq_decode]
  have hlen2 : (u16Head (c1 :: rest)).2 + ((c1 :: rest).drop (u16Head (c1 :: rest)).2).length
      = len0 := by
    have hle := u16Head_le_length (c1 :: rest) (by simp)
    have hlen : (c1 :: rest).length = len0 := by rw [hback]; exact hslen
    simp only [List.length_drop, List.length_cons] at hle hlen ⊢
    omega
  rw [hlen2]
  rw [specScan_append_stale ext len0
    (decodeChars (u16Head (c1 :: rest)).2 ((c1 :: rest).drop (u16Head (c1 :: rest)).2))
    (GetScriptExtensions ext (u16Head (c1 :: rest)).1)
    ((GetScriptExtensions ext (u16Head (c1 :: rest)).1).headD USCRIPT_INVALID_CODE)
    (u16Head (c1 :: rest)).1 ?_ (plainIntersect_self ext (u16Head (c1 :: rest)).1)]
  · rw [decodeChars_cons 0 (c1 :: rest) (by simp)]
    simp
  · cases hc : GetScriptExtensions ext (u16Head (c1 :: rest)).1 with
    | nil => rfl
    | cons x xs => rfl

/-- Position outcome of the reference scan: the first code point whose
intersection empties the active set determines the returned length (its
own offset), and when no intersection empties the set the full requested
length is returned. -/
theorem specScan_fst (ext : Int → List Int) (len : Nat) :
    ∀ (tail : List (Nat × Int)) (scripts : List Int) (slot0 : Int),
      (specScan ext len tail scripts slot0).1 =
        match (activeSets ext scripts tail).findIdx? (fun l => l.isEmpty) with
        | some j => (tail.getD j (0, 0)).1
        | none => len
  | [], scripts, slot0 => by
    simp [specScan, activeSets]
  | (p, c) :: rest, scripts, slot0 => by
    simp only [specScan, activeSets, List.findIdx?_cons]
    by_cases h : (plainIntersect ext c scripts).isEmpty = true
    · simp [h]
    · simp only [h, Bool.false_eq_true, if_false]
      rw [List.findIdx?_succ]
      rw [specScan_fst ext len rest (plainIntersect ext c scripts)
        ((plainIntersect ext c scripts).headD slot0)]
      cases (activeSets ext (plainIntersect ext c scripts) rest).findIdx?
          (fun l => l.isEmpty) with
      | none => simp
      | some j => simp

theorem lastBeforeEmpty_ne_nil :
    ∀ (sets : List (List Int)) (cur : List Int), cur ≠ [] →
      lastBeforeEmpty cur sets ≠ []
  | [], cur, hbase => hbase
  | s :: ss, cur, hbase => by
    rw [lastBeforeEmpty]
    by_cases hs : s.isEmpty = true
    · simp [hs, hbase]
    · simp only [hs, Bool.false_eq_true, if_false]
      exact lastBeforeEmpty_ne_nil ss s (by simpa [List.isEmpty_iff] using hs)

/-- Dominant-script outcome of the reference scan: the final scripts[0] value
is the head of the active set standing after the last non-emptying
intersection (the physical array slot is never written by an emptying
intersection). -/
theorem specScan_snd (ext : Int → List Int) (len : Nat) :
    ∀ (tail : List (Nat × Int)) (scripts : List Int) (slot0 : Int),
      slot0 = scripts.headD slot0 →
      (specScan ext len tail scripts slot0).2 =
        (lastBeforeEmpty scripts (activeSets ext scripts tail)).headD slot0
  | [], scripts, slot0, hslot => by
    simp only [specScan, activeSets, lastBeforeEmpty]
    exact hslot
  | (p, c) :: rest, scripts, slot0, hslot => by
    simp only [specScan, activeSets, lastBeforeEmpty]
    by_cases h : (plainIntersect ext c scripts).isEmpty = true
    · simp only [h, if_true]
      exact hslot
    · simp only [h, Bool.false_eq_true, if_false]
      rw [specScan_snd ext len rest (plainIntersect ext c scripts)
        ((plainIntersect ext c scripts).headD slot0)
        (headD_of_ne_nil (by simpa [List.isEmpty_iff] using h) _ _)]
      exact headD_of_ne_nil
        (lastBeforeEmpty_ne_nil _ _ (by simpa [List.isEmpty_iff] using h)) _ _

/-- Availability of the ICU data property for the concrete test oracle. -/
theorem wExt_inheritedOk : InheritedOk wExt := by
  intro cp h
  unfold GetScriptExtensions wExt at h ⊢
  by_cases h1 : cp = 769 <;> by_cases h2 : cp = 65 <;> by_cases h3 : cp = 66 <;>
    by_cases h4 : cp = 67 <;>
    simp [h1, h2, h3, h4, kMaxScripts, USCRIPT_INHERITED, USCRIPT_COMMON] at h ⊢

/-- Claim C6: for an in-bounds positive-length request, ScriptInterval
returns a run length equal to the offset, within the scanned slice, of the
first code point whose intersection with the active set yields the empty
set (the run ends before that code point); when no intersection empties
the set, the full requested length is returned. The intersections are
those of the decoded code points after the first, in order (activeSets),
and the offset is the code unit offset at which that code point starts. -/
theorem C6_scriptInterval_ends_before_emptying (ext : Int → List Int) (text : List Nat)
    (start len0 : Nat) (h0 : 0 < len0) (h1 : start + len0 ≤ text.length)
    (hI : InheritedOk ext) :
    ∃ r sc, ScriptInterval ext text start len0 = some (r, sc) ∧
      (∀ j, (activeSets ext
          (GetScriptExtensions ext (u16Head ((text.drop start).take len0)).1)
          (decodeChars 0 ((text.drop start).take len0)).tail).findIdx?
            (fun l => l.isEmpty) = some j →
        r = ((decodeChars 0 ((text.drop start).take len0)).tail.getD j (0, 0)).1) ∧
      ((activeSets ext
          (GetScriptExtensions ext (u16Head ((text.drop start).take len0)).1)
          (decodeChars 0 ((text.drop start).take len0)).tail).findIdx?
            (fun l => l.isEmpty) = none →
        r = len0) := by
  rw [ScriptInterval_eq_specScan ext text start len0 h0 h1 hI]
  refine ⟨_, _, rfl, ?_, ?_⟩
  · intro j hj
    rw [specScan_fst]
    rw [hj]
  · intro hnone
    rw [specScan_fst]
    rw [hnone]

/-- Witness for C6 on a three-character text whose third character empties
the active set: the run ends at offset 2, before that character. -/
theorem C6_witness :
    ScriptInterval wExt [65, 66, 67] 0 3 = some (2, 5) ∧
    (∃ r sc, ScriptInterval wExt [65, 66, 67] 0 3 = some (r, sc) ∧
      (∀ j, (activeSets wExt
          (GetScriptExtensions wExt (u16Head (([65, 66, 67] : List Nat).drop 0 |>.take 3)).1)
          (decodeChars 0 (([65, 66, 67] : List Nat).drop 0 |>.take 3)).tail).findIdx?
            (fun l => l.isEmpty) = some j →
        r = ((decodeChars 0 (([65, 66, 67] : List Nat).drop 0 |>.take 3)).tail.getD
          j (0, 0)).1) ∧
      ((activeSets wExt
          (GetScriptExtensions wExt (u16Head (([65, 66, 67] : List Nat).drop 0 |>.take 3)).1)
          (decodeChars 0 (([65, 66, 67] : List Nat).drop 0 |>.take 3)).tail).findIdx?
            (fun l => l.isEmpty) = none →
        r = 3)) :=
  ⟨by decide, C6_scriptInterval_ends_before_emptying wExt [65, 66, 67] 0 3
    (by decide) (by decide) wExt_inheritedOk⟩

/-- Claim C7: the dominant script returned by ScriptInterval is the element
at index 0 of the active set as it stands after the last non-emptying
intersection (an emptying intersection writes nothing into the array, so
scripts[0] keeps the head of the previous set), determined purely by order,
with USCRIPT_INVALID_CODE when even the initial set is empty. -/
theorem C7_scriptInterval_dominant_script (ext : Int → List Int) (text : List Nat)
    (start len0 : Nat) (h0 : 0 < len0) (h1 : start + len0 ≤ text.length)
    (hI : InheritedOk ext) :
    ∃ r sc, ScriptInterval ext text start len0 = some (r, sc) ∧
      sc = (lastBeforeEmpty
          (GetScriptExtensions ext (u16Head ((text.drop start).take len0)).1)
          (activeSets ext
            (GetScriptExtensions ext (u16Head ((text.drop start).take len0)).1)
            (decodeChars 0 ((text.drop start).take len0)).tail)).headD
        USCRIPT_INVALID_CODE := by
  rw [ScriptInterval_eq_specScan ext text start len0 h0 h1 hI]
  refine ⟨_, _, rfl, ?_⟩
  rw [specScan_snd ext len0 _ _ _ ?hslot]
  case hslot =>
    cases GetScriptExtensions ext (u16Head ((text.drop start).take len0)).1 with
    | nil => rfl
    | cons x xs => rfl
  by_cases hgot : lastBeforeEmpty
      (GetScriptExtensions ext (u16Head ((text.drop start).take len0)).1)
      (activeSets ext
        (GetScriptExtensions ext (u16Head ((text.drop start).take len0)).1)
        (decodeChars 0 ((text.drop start).take len0)).tail) = []
  · rw [hgot]
    have hinit : GetScriptExtensions ext (u16Head ((text.drop start).take len0)).1 = [] := by
      by_contra hne
      exact lastBeforeEmpty_ne_nil _ _ hne hgot
    rw [hinit]
    rfl
  · exact headD_of_ne_nil hgot _ _

/-- Witness for C7: the dominant script is the head of the set standing
before the emptying intersection. -/
theorem C7_witness :
    ScriptInterval wExt [65, 66, 67] 0 3 = some (2, 5) ∧
    (lastBeforeEmpty
        (GetScriptExtensions wExt (u16Head (([65, 66, 67] : List Nat).drop 0 |>.take 3)).1)
        (activeSets wExt
          (GetScriptExtensions wExt (u16Head (([65, 66, 67] : List Nat).drop 0 |>.take 3)).1)
          (decodeChars 0 (([65, 66, 67] : List Nat).drop 0 |>.take 3)).tail)).headD
      USCRIPT_INVALID_CODE = 5 ∧
    (∃ r sc, ScriptInterval wExt [65, 66, 67] 0 3 = some (r, sc) ∧
      sc = (lastBeforeEmpty
          (GetScriptExtensions wExt (u16Head (([65, 66, 67] : List Nat).drop 0 |>.take 3)).1)
          (activeSets wExt
            (GetScriptExtensions wExt (u16Head (([65, 66, 67] : List Nat).drop 0 |>.take 3)).1)
            (decodeChars 0 (([65, 66, 67] : List Nat).drop 0 |>.take 3)).tail)).headD
        USCRIPT_INVALID_CODE) :=
  ⟨by decide, by decide, C7_scriptInterval_dominant_script wExt [65, 66, 67] 0 3
    (by decide) (by decide) wExt_inheritedOk⟩

/-! Lemmas about interval covering and the run-producing loops. -/

theorem covers_le : ∀ (l : List TextRun) (a b : Nat), Covers a b l → a ≤ b
  | [], a, b, h => Nat.le_of_eq h
  | r :: t, a, b, h => by
    obtain ⟨h1, h2, h3⟩ := h
    have := covers_le t (a + r.m_length) b h3
    omega

theorem covers_append : ∀ (l1 : List TextRun) (a m b : Nat) (l2 : List TextRun),
    Covers a m l1 → Covers m b l2 → Covers a b (l1 ++ l2)
  | [], a, m, b, l2, h1, h2 => by
    have : a = m := h1
    rw [List.nil_append, this]
    exact h2
  | r :: t, a, m, b, l2, h1, h2 => by
    obtain ⟨ha, hl, hrest⟩ := h1
    exact ⟨ha, hl, covers_append t (a + r.m_length) m b l2 hrest h2⟩

theorem covers_mem_bounds : ∀ (l : List TextRun) (a b : Nat) (r : TextRun),
    Covers a b l → r ∈ l → a ≤ r.m_start ∧ r.m_start + r.m_length ≤ b
  | [], a, b, r, _, hmem => absurd hmem (List.not_mem_nil r)
  | x :: t, a, b, r, hcov, hmem => by
    obtain ⟨ha, hl, hrest⟩ := hcov
    rcases List.mem_cons.mp hmem with hr | hr
    · subst hr
      have := covers_le t (a + r.m_length) b hrest
      omega
    · have := covers_mem_bounds t (a + x.m_length) b r hrest hr
      omega

theorem covers_mem_pos : ∀ (l : List TextRun) (a b : Nat) (r : TextRun),
    Covers a b l → r ∈ l → 0 < r.m_length
  | [], a, b, r, _, hmem => absurd hmem (List.not_mem_nil r)
  | x :: t, a, b, r, hcov, hmem => by
    obtain ⟨ha, hl, hrest⟩ := hcov
    rcases List.mem_cons.mp hmem with hr | hr
    · subst hr; exact hl
    · exact covers_mem_pos t (a + x.m_length) b r hrest hr

theorem specScan_fst_cases (ext : Int → List Int) (len : Nat) :
    ∀ (tail : List (Nat × Int)) (scripts : List Int) (slot0 : Int),
      (specScan ext len tail scripts slot0).1 = len ∨
        ∃ q ∈ tail, (specScan ext len tail scripts slot0).1 = q.1
  | [], scripts, slot0 => by
    simp [specScan]
  | (p, c) :: rest, scripts, slot0 => by
    simp only [specScan]
    by_cases h : (plainIntersect ext c scripts).isEmpty = true
    · refine Or.inr ⟨(p, c), by simp, ?_⟩
      simp [h]
    · simp only [h, Bool.false_eq_true, if_false]
      rcases specScan_fst_cases ext len rest (plainIntersect ext c scripts)
          ((plainIntersect ext c scripts).headD slot0) with hl | ⟨q, hq, he⟩
      · exact Or.inl hl
      · exact Or.inr ⟨q, by simp [hq], he⟩

theorem u16Head_pos : ∀ l : List Nat, 1 ≤ (u16Head l).2
  | [] => by simp [u16Head]
  | [c1] => by simp [u16Head]
  | c1 :: c2 :: rest2 => by
    by_cases hb : u16IsLead c1 && u16IsTrail c2 <;> simp [u16Head, hb]

theorem decodeChars_pos_bounds : ∀ (l : List Nat) (pos : Nat) (q : Nat × Int),
    q ∈ decodeChars pos l → pos ≤ q.1 ∧ q.1 < pos + l.length
  | [], pos, q, h => by simp [decodeChars] at h
  | [c1], pos, q, h => by
    simp [decodeChars] at h
    simp [h]
  | c1 :: c2 :: rest2, pos, q, h => by
    by_cases hb : u16IsLead c1 && u16IsTrail c2
    · rw [decodeChars, if_pos hb] at h
      rcases List.mem_cons.mp h with hq | hq
      · simp [hq]
      · have := decodeChars_pos_bounds rest2 (pos + 2) q hq
        simp only [List.length_cons]
        omega
    · rw [decodeChars, if_neg hb] at h
      rcases List.mem_cons.mp h with hq | hq
      · simp [hq]
      · have := decodeChars_pos_bounds (c2 :: rest2) (pos + 1) q hq
        simp only [List.length_cons] at this ⊢
        omega

/-- On an in-bounds positive-length request, ScriptInterval succeeds and the
returned run length is positive and at most the requested length. -/
theorem ScriptInterval_some_bounds (ext : Int → List Int) (text : List Nat)
    (start len0 : Nat) (h0 : 0 < len0) (h1 : start + len0 ≤ text.length)
    (hI : InheritedOk ext) :
    ∃ r sc, ScriptInterval ext text start len0 = some (r, sc) ∧ 0 < r ∧ r ≤ len0 := by
  rw [ScriptInterval_eq_specScan ext text start len0 h0 h1 hI]
  refine ⟨_, _, rfl, ?_⟩
  have hslen : ((text.drop start).take len0).length = len0 := by
    simp [List.length_take, List.length_drop]
    omega
  have hsne : (text.drop start).take len0 ≠ [] := by
    intro hnil
    rw [hnil] at hslen
    simp at hslen
    omega
  rcases specScan_fst_cases ext len0 (decodeChars 0 ((text.drop start).take len0)).tail
      (GetScriptExtensions ext (u16Head ((text.drop start).take len0)).1)
      ((GetScriptExtensions ext (u16Head ((text.drop start).take len0)).1).headD
        USCRIPT_INVALID_CODE) with hl | ⟨q, hq, he⟩
  · rw [hl]
    omega
  · rw [he]
    rw [decodeChars_cons 0 _ hsne] at hq
    simp only [List.tail_cons] at hq
    have hb := decodeChars_pos_bounds _ _ _ hq
    have hp := u16Head_pos ((text.drop start).take len0)
    have hle := u16Head_le_length _ hsne
    simp only [List.length_drop, hslen] at hb
    constructor
    · omega
    · omega

/-- Inner loop specification: on an in-bounds window the script loop
succeeds, its output tiles [s, e) exactly once, and every produced run is
tagged with the direction derived from the bidi level parity. -/
theorem scriptLoop_spec (ext : Int → List Int) (text : List Nat) (hI : InheritedOk ext)
    (e level : Nat) (he : e ≤ text.length) :
    ∀ (n s : Nat), e - s ≤ n → s ≤ e →
      ∃ runs, scriptLoop ext text e level s = some runs ∧ Covers s e runs ∧
        ∀ r ∈ runs, r.m_direction = levelToDirection level := by
  intro n
  induction n with
  | zero =>
    intro s hn hse
    have hseq : s = e := by omega
    subst hseq
    refine ⟨[], ?_, by simp [Covers], by simp⟩
    rw [scriptLoop, dif_neg (by omega)]
  | succ n ih =>
    intro s hn hse
    by_cases h : s < e
    · obtain ⟨r0, sc, heq, hpos, hle⟩ :=
        ScriptInterval_some_bounds ext text s (e - s) (by omega) (by omega) hI
      obtain ⟨rest, hreq, hrcov, hrdir⟩ := ih (s + r0) (by omega) (by omega)
      refine ⟨TextRun.mk s r0 (ICUScriptToHarfbuzzScript sc) (levelToDirection level)
        :: rest, ?_, ⟨rfl, hpos, hrcov⟩, ?_⟩
      · rw [scriptLoop, dif_pos h, heq]
        dsimp only
        rw [dif_pos (show s < s + r0 from by omega), hreq]
      · intro r hr
        rcases List.mem_cons.mp hr with hr | hr
        · rw [hr]
        · exact hrdir r hr
    · have hseq : s = e := by omega
      subst hseq
      refine ⟨[], ?_, by simp [Covers], by simp⟩
      rw [scriptLoop, dif_neg (by omega)]

/-- Outer loop specification: with a valid bidi oracle the bidi loop
succeeds from any position, its output tiles [s, textLength) exactly once,
and every produced run is tagged with the direction derived from the
parity of the level of the logical run containing its start. -/
theorem bidiLoop_spec (ext : Int → List Int) (bidi : BidiOracle) (text : List Nat)
    (hI : InheritedOk ext) (hv : ValidBidi bidi text.length) :
    ∀ (n s : Nat), text.length - s ≤ n → s ≤ text.length →
      ∃ runs, bidiLoop ext bidi text s = some runs ∧ Covers s text.length runs ∧
        ∀ r ∈ runs, r.m_direction
          = levelToDirection (levelAtFrom bidi text.length r.m_start s) := by
  intro n
  induction n with
  | zero =>
    intro s hn hse
    have hseq : s = text.length := by omega
    subst hseq
    refine ⟨[], ?_, by simp [Covers], by simp⟩
    rw [bidiLoop, dif_neg (by omega)]
  | succ n ih =>
    intro s hn hse
    by_cases h : s < text.length
    · obtain ⟨hlim1, hlim2⟩ := hv s h
      obtain ⟨first, h1eq, h1cov, h1dir⟩ :=
        scriptLoop_spec ext text hI (bidi.logicalRun s).1 (bidi.logicalRun s).2 hlim2
          ((bidi.logicalRun s).1 - s) s (by omega) (by omega)
      obtain ⟨rest, h2eq, h2cov, h2dir⟩ := ih (bidi.logicalRun s).1 (by omega) (by omega)
      refine ⟨first ++ rest, ?_, covers_append first s (bidi.logicalRun s).1 text.length
        rest h1cov h2cov, ?_⟩
      · rw [bidiLoop, dif_pos h]
        dsimp only
        rw [dif_pos hlim1, h1eq]
        dsimp only
        rw [h2eq]
      · intro r hr
        rcases List.mem_append.mp hr with hr | hr
        · have hb := covers_mem_bounds first s (bidi.logicalRun s).1 r h1cov hr
          have hlt : r.m_start < (bidi.logicalRun s).1 := by
            have hp := covers_mem_pos first s (bidi.logicalRun s).1 r h1cov hr
            omega
          rw [levelAtFrom, dif_pos h]
          dsimp only
          rw [if_pos hlt]
          exact h1dir r hr
        · have hb := covers_mem_bounds rest (bidi.logicalRun s).1 text.length r h2cov hr
          rw [levelAtFrom, dif_pos h]
          dsimp only
          rw [if_neg (by omega), dif_pos hlim1]
          exact h2dir r hr
    · have hseq : s = text.length := by omega
      subst hseq
      refine ⟨[], ?_, by simp [Covers], by simp⟩
      rw [bidiLoop, dif_neg (by omega)]

/-- Validity of the concrete single-run bidi oracle for length 2. -/
theorem wBidi_valid : ValidBidi wBidi 2 := by
  intro p hp
  exact ⟨by simpa [wBidi] using hp, by simp [wBidi]⟩

/-- Validity of the concrete mixed-direction bidi oracle for length 2. -/
theorem wBidiMixed_valid : ValidBidi wBidiMixed 2 := by
  intro p hp
  by_cases h : p = 0 <;> simp [wBidiMixed, h] <;> omega

/-- A nonempty run sequence is always reordered successfully (the unguarded
first-run read stays in bounds). -/
theorem reorderRTL_some_of_ne_nil (runs : List TextRun) (h : runs ≠ []) :
    ∃ out, ReorderRTL runs = some out := by
  cases runs with
  | nil => exact absurd rfl h
  | cons r rest => exact ⟨_, rfl⟩

/-- Claim C1: for every valid non-empty input, the runs produced by
itemization (GetSingleTextLineRuns via ItemizeText) tile the offset range
[0, textLength) exactly once: the first run starts at 0, every run has
positive length and starts exactly where the previous one ends (hence
strictly increasing, non-overlapping starts), and the last run ends at
textLength. -/
theorem C1_itemize_covers (ext : Int → List Int) (bidi : BidiOracle)
    (toUtf16 : List Nat → List Nat) (utf8 : List Nat)
    (h1 : utf8 ≠ []) (hcr : utf8.contains 13 = false) (hlf : utf8.contains 10 = false)
    (hb : bidi.fails = false) (hv : ValidBidi bidi (toUtf16 utf8).length)
    (hI : InheritedOk ext) :
    ∃ tr, ItemizeText ext bidi toUtf16 utf8 = some tr ∧ tr.text = toUtf16 utf8 ∧
      Covers 0 (toUtf16 utf8).length tr.substrings := by
  obtain ⟨runs, heq, hcov, _⟩ := bidiLoop_spec ext bidi (toUtf16 utf8) hI hv
    ((toUtf16 utf8).length) 0 (by omega) (by omega)
  refine ⟨TextRuns.mk (toUtf16 utf8) runs, ?_, rfl, hcov⟩
  rw [ItemizeText, if_neg h1, if_neg (by rw [hcr, hlf]; simp)]
  dsimp only
  rw [GetSingleTextLineRuns, if_neg (by simp [hb]), heq]

/-- Witness for C1 on a concrete two-character LTR text. -/
theorem C1_witness :
    ∃ tr, ItemizeText wExt wBidi wToUtf16 [72, 105] = some tr ∧
      tr.text = wToUtf16 [72, 105] ∧
      Covers 0 (wToUtf16 [72, 105]).length tr.substrings :=
  C1_itemize_covers wExt wBidi wToUtf16 [72, 105] (by decide) (by decide) (by decide)
    rfl wBidi_valid wExt_inheritedOk

/-- Claim C2 (recorded divergence): when ubidi_setPara fails,
GetSingleTextLineRuns returns normally with exactly one degraded run
tagged HB_SCRIPT_UNKNOWN and HB_DIRECTION_INVALID, but that run is
emplace_back(0, 0, ...): its length is 0, not the text length 1 of the
paragraph, so the degraded run does not span the full paragraph. -/
theorem C2_bidi_failure_degraded_run :
    GetSingleTextLineRuns wExt wBidiFail [72]
      = some [TextRun.mk 0 0 HBScript.unknown HBDirection.invalid] ∧
    ([72] : List Nat).length = 1 ∧
    (TextRun.mk 0 0 HBScript.unknown HBDirection.invalid).m_length = 0 := by
  refine ⟨?_, rfl, rfl⟩
  rw [GetSingleTextLineRuns, if_pos (by rfl)]

/-- Claim C8: every run produced on the success path is tagged right-to-left
exactly when the bidi embedding level of the logical run containing its
start offset is odd, and left-to-right exactly when that level is even. -/
theorem C8_direction_from_level_parity (ext : Int → List Int) (bidi : BidiOracle)
    (text : List Nat) (hb : bidi.fails = false) (hv : ValidBidi bidi text.length)
    (hI : InheritedOk ext) :
    ∃ runs, GetSingleTextLineRuns ext bidi text = some runs ∧
      ∀ r ∈ runs,
        (r.m_direction = HBDirection.rtl
          ↔ levelAtFrom bidi text.length r.m_start 0 % 2 = 1) ∧
        (r.m_direction = HBDirection.ltr
          ↔ levelAtFrom bidi text.length r.m_start 0 % 2 = 0) := by
  obtain ⟨runs, heq, _, hdir⟩ := bidiLoop_spec ext bidi text hI hv
    text.length 0 (by omega) (by omega)
  refine ⟨runs, ?_, ?_⟩
  · rw [GetSingleTextLineRuns, if_neg (by simp [hb]), heq]
  · intro r hr
    rw [hdir r hr]
    unfold levelToDirection
    by_cases hpar : levelAtFrom bidi text.length r.m_start 0 % 2 = 1
    · simp [hpar]
    · have h0 : levelAtFrom bidi text.length r.m_start 0 % 2 = 0 := by omega
      simp [hpar, h0]

/-- Witness for C8 on a two-character text with an LTR then an RTL logical
run. -/
theorem C8_witness :
    ∃ runs, GetSingleTextLineRuns wExt wBidiMixed [72, 72] = some runs ∧
      ∀ r ∈ runs,
        (r.m_direction = HBDirection.rtl
          ↔ levelAtFrom wBidiMixed ([72, 72] : List Nat).length r.m_start 0 % 2 = 1) ∧
        (r.m_direction = HBDirection.ltr
          ↔ levelAtFrom wBidiMixed ([72, 72] : List Nat).length r.m_start 0 % 2 = 0) :=
  C8_direction_from_level_parity wExt wBidiMixed [72, 72] rfl wBidiMixed_valid
    wExt_inheritedOk

/-- Claim C10: for every non-empty input (with non-empty transcoding), when
the bidi oracle either fails or is valid, ItemizeText returns a TextRuns
holding at least one run: the degraded run on the failure path, at least
one covering run on the success path; consequently the unguarded read of
the first run at the start of ReorderRTL is in bounds and reordering
returns normally. -/
theorem C10_itemize_nonempty_safe_reorder (ext : Int → List Int) (bidi : BidiOracle)
    (toUtf16 : List Nat → List Nat) (utf8 : List Nat)
    (h1 : utf8 ≠ []) (hcr : utf8.contains 13 = false) (hlf : utf8.contains 10 = false)
    (h16 : toUtf16 utf8 ≠ []) (hI : InheritedOk ext)
    (hb : bidi.fails = true ∨ (bidi.fails = false ∧ ValidBidi bidi (toUtf16 utf8).length)) :
    ∃ tr out, ItemizeText ext bidi toUtf16 utf8 = some tr ∧ tr.substrings ≠ [] ∧
      ReorderRTL tr.substrings = some out := by
  rcases hb with hf | ⟨hf, hv⟩
  · have heq : ItemizeText ext bidi toUtf16 utf8 = some (TextRuns.mk (toUtf16 utf8)
        [TextRun.mk 0 0 HBScript.unknown HBDirection.invalid]) := by
      rw [ItemizeText, if_neg h1, if_neg (by rw [hcr, hlf]; simp)]
      dsimp only
      rw [GetSingleTextLineRuns, if_pos (by simp [hf])]
    obtain ⟨out, hout⟩ := reorderRTL_some_of_ne_nil
      [TextRun.mk 0 0 HBScript.unknown HBDirection.invalid] (by simp)
    exact ⟨_, out, heq, by simp, hout⟩
  · obtain ⟨runs, hreq, hcov, _⟩ := bidiLoop_spec ext bidi (toUtf16 utf8) hI hv
      ((toUtf16 utf8).length) 0 (by omega) (by omega)
    have hne : runs ≠ [] := by
      intro hnil
      subst hnil
      have hz : (0 : Nat) = (toUtf16 utf8).length := hcov
      exact h16 (List.length_eq_zero.mp hz.symm)
    have heq : ItemizeText ext bidi toUtf16 utf8
        = some (TextRuns.mk (toUtf16 utf8) runs) := by
      rw [ItemizeText, if_neg h1, if_neg (by rw [hcr, hlf]; simp)]
      dsimp only
      rw [GetSingleTextLineRuns, if_neg (by simp [hf]), hreq]
    obtain ⟨out, hout⟩ := reorderRTL_some_of_ne_nil runs hne
    exact ⟨_, out, heq, by simpa using hne, hout⟩

/-- Witness for C10 on the bidi-failure path for a one-character text. -/
theorem C10_witness :
    ∃ tr out, ItemizeText wExt wBidiFail wToUtf16 [72] = some tr ∧
      tr.substrings ≠ [] ∧ ReorderRTL tr.substrings = some out :=
  C10_itemize_nonempty_safe_reorder wExt wBidiFail wToUtf16 [72] (by decide) (by decide)
    (by decide) (by decide) wExt_inheritedOk (Or.inl rfl)

end text_shape
